import Mathlib

/-!
Shallow embedding of the auction lifecycle core of this repository
(`internal/infra/database/auction/create_auction.go`).

Modelling conventions:
* Go `time.Time` values are modelled as `Int` nanoseconds since the Unix
  epoch; `time.Duration` is likewise `Int` nanoseconds.  `Time.Unix()`
  truncates to whole seconds, i.e. floor division by `10^9` (Go stores a
  time as `(sec, nsec)` with `0 ≤ nsec < 10^9`), and `time.Unix(sec, 0)`
  is `sec * 10^9` nanoseconds.
* The Mongo collection is modelled as a `List AuctionEntityMongo`; the
  `_id` field is unique in a real collection, so theorems that need it
  take a `Nodup` hypothesis on the list of ids.
* The in-memory `activeAuctions` Go map is modelled as an association
  list `List (String × Int)` with unique keys; `mapInsert` / `mapErase` /
  `mapLookup` model Go map assignment, `delete`, and indexing.
* Fallible store calls (InsertOne, UpdateOne, Find) are modelled by a
  `Bool` parameter (or a `String → Bool` oracle for per-id calls) that
  says whether the driver call returns an error; on an error the
  collection is unchanged and the Go functions return an
  `*internal_error.InternalError`, modelled as `Option String` carrying
  the exact message built by the source.
-/

/-- Status enumeration from `internal/entity/auction_entity` as used by the
repository code: the conditional close filters on `Active` and sets
`Completed`. -/
inductive AuctionStatus where
  | New : AuctionStatus
  | Active : AuctionStatus
  | Completed : AuctionStatus
deriving DecidableEq

/-- `AuctionEntityMongo` (create_auction.go lines 17-25): the persisted
document.  `timestamp` is the `bson:"timestamp"` field, an `int64` of whole
Unix seconds (`auctionEntity.Timestamp.Unix()`). `condition` is the opaque
`ProductCondition` enumeration, modelled as a `Nat`. -/
structure AuctionEntityMongo where
  id : String
  productName : String
  category : String
  description : String
  condition : Nat
  status : AuctionStatus
  timestamp : Int
deriving DecidableEq

/-- The domain entity `auction_entity.Auction` as far as this repository
reads it.  `timestamp` is the full-precision `time.Time`, in nanoseconds. -/
structure Auction where
  id : String
  productName : String
  category : String
  description : String
  condition : Nat
  status : AuctionStatus
  timestamp : Int
deriving DecidableEq

def nanosPerSecond : Int := 1000000000

/-- Go `time.Time.Unix()`: truncation of a nanosecond instant to whole
seconds, i.e. floor division by `10^9`. -/
def unixSec (t : Int) : Int := t / nanosPerSecond

/-- The document built by `CreateAuction` (lines 57-65): all fields copied
verbatim, the timestamp truncated by `.Unix()`. -/
def toMongoEntity (a : Auction) : AuctionEntityMongo :=
  { id := a.id
    productName := a.productName
    category := a.category
    description := a.description
    condition := a.condition
    status := a.status
    timestamp := unixSec a.timestamp }

/-- The in-memory `activeAuctions map[string]time.Time`, as an association
list from auction id to end time (nanoseconds). -/
abbrev ActiveIndex : Type := List (String × Int)

/-- Go map indexing `m[k]`. -/
def mapLookup : ActiveIndex → String → Option Int
  | [], _ => none
  | p :: ps, k => if p.1 = k then some p.2 else mapLookup ps k

/-- Go map assignment `m[k] = v` (replaces an existing binding, appends a
new one). -/
def mapInsert : ActiveIndex → String → Int → ActiveIndex
  | [], k, v => [(k, v)]
  | p :: ps, k, v => if p.1 = k then (k, v) :: ps else p :: mapInsert ps k v

/-- Go `delete(m, k)`. -/
def mapErase : ActiveIndex → String → ActiveIndex
  | [], _ => []
  | p :: ps, k => if p.1 = k then mapErase ps k else p :: mapErase ps k

def errInsert : String := "Error trying to insert auction"

def errClose : String := "Error closing auction"

def errLoad : String := "Error loading active auctions"

def emptyString : String := ""

/-- Effect on the collection of the `UpdateOne` issued by `closeAuction`
(lines 134-137): the first (in a real collection, the only) document with
`_id = id` and `status = Active` gets `status := Completed`; everything
else is untouched. -/
def updateOneStore : List AuctionEntityMongo → String → List AuctionEntityMongo
  | [], _ => []
  | r :: rs, id =>
    if r.id = id ∧ r.status = AuctionStatus.Active then
      { r with status := AuctionStatus.Completed } :: rs
    else
      r :: updateOneStore rs id

/-- The `ModifiedCount` reported by that same `UpdateOne`: `1` when a
document matched the `_id = id ∧ status = Active` filter, else `0` (the
update always changes the status of a matched document, so matched and
modified counts coincide here). -/
def updateOneMatched : List AuctionEntityMongo → String → Nat
  | [], _ => 0
  | r :: rs, id =>
    if r.id = id ∧ r.status = AuctionStatus.Active then 1
    else updateOneMatched rs id

/-- Result of `closeAuction`: the collection afterwards, the modified
count the driver reported, and the returned `*InternalError` (`none` is
Go `nil`). -/
structure CloseResult where
  store : List AuctionEntityMongo
  modifiedCount : Nat
  error : Option String
deriving DecidableEq

/-- `closeAuction` (lines 130-148).  `dbFails = true` models the driver
returning an error from `UpdateOne`; the function then reports an internal
error and the collection is unchanged.  Otherwise the conditional update
is applied and `nil` is returned — also when zero documents matched
(`ModifiedCount` is only consulted for the success log line). -/
def closeAuction (store : List AuctionEntityMongo) (id : String)
    (dbFails : Bool) : CloseResult :=
  if dbFails then ⟨store, 0, some errClose⟩
  else ⟨updateOneStore store id, updateOneMatched store id, none⟩

/-- The repository state the sweep mutates: the collection and the
`activeAuctions` index. -/
structure RepoState where
  store : List AuctionEntityMongo
  activeAuctions : ActiveIndex
deriving DecidableEq

/-- The snapshot phase of `closeExpiredAuctions` (lines 108-114): under the
read lock, collect the ids whose end time satisfies `now.After(endTime)`,
i.e. `endTime < now` — strict, so an entry whose end time equals `now` is
not selected.  It only reads the index; in this embedding that is visible
in the type (the index is consumed read-only and no index is returned). -/
def snapshotExpired (m : ActiveIndex) (now : Int) : List String :=
  (List.filter (fun p => decide (p.2 < now)) m).map Prod.fst

/-- One iteration of the close loop of `closeExpiredAuctions`
(lines 117-126): call `closeAuction`; on error only log (the index entry
survives, to be retried next tick), on success delete the id from the
index. -/
def sweepCloseOne (fails : String → Bool) (st : RepoState) (id : String) :
    RepoState :=
  let res := closeAuction st.store id (fails id)
  if res.error.isSome then ⟨res.store, st.activeAuctions⟩
  else ⟨res.store, mapErase st.activeAuctions id⟩

/-- `closeExpiredAuctions` (lines 103-127): snapshot the expired ids at
`now = time.Now()`, then close them one by one.  `fails id` says whether
the `UpdateOne` for `id` returns a driver error. -/
def closeExpiredAuctions (fails : String → Bool) (st : RepoState)
    (now : Int) : RepoState :=
  (snapshotExpired st.activeAuctions now).foldl (sweepCloseOne fails) st

/-- Mongo collection read used in theorems: the first document with the
given `_id` (unique in a real collection). -/
def findRec : List AuctionEntityMongo → String → Option AuctionEntityMongo
  | [], _ => none
  | r :: rs, k => if r.id = k then some r else findRec rs k

/-- Result of `CreateAuction`: collection, index, and returned error. -/
structure CreateResult where
  store : List AuctionEntityMongo
  index : ActiveIndex
  error : Option String
deriving DecidableEq

/-- `CreateAuction` (lines 54-79).  `insertFails` models `InsertOne`
returning an error: then an internal error is returned and neither the
collection nor the index changes.  On success the document is inserted and
the index unconditionally receives `id ↦ Timestamp.Add(auctionInterval)`
(full-precision nanoseconds, not the truncated persisted value). -/
def createAuction (store : List AuctionEntityMongo) (idx : ActiveIndex)
    (interval : Int) (a : Auction) (insertFails : Bool) : CreateResult :=
  if insertFails then ⟨store, idx, some errInsert⟩
  else
    ⟨store ++ [toMongoEntity a],
     mapInsert idx a.id (a.timestamp + interval),
     none⟩

/-- End time recomputed by `LoadActiveAuctions` (lines 171-172):
`time.Unix(auction.Timestamp, 0).Add(ar.auctionInterval)` — the persisted
whole-second timestamp scaled back to nanoseconds, plus the interval. -/
def loadEndTime (interval : Int) (r : AuctionEntityMongo) : Int :=
  r.timestamp * nanosPerSecond + interval

/-- Result of `LoadActiveAuctions`: the index afterwards, the ids for which
a `go ar.closeAuction(id)` goroutine was spawned, and the returned error. -/
structure LoadResult where
  index : ActiveIndex
  closedIds : List String
  error : Option String
deriving DecidableEq

/-- One iteration of the reconciliation loop (lines 170-181): if
`time.Now().Before(endTime)` (strictly `now < endTime`) register the entry,
else record that `closeAuction` is invoked for this id — without touching
the index. -/
def loadStep (interval now : Int) (acc : ActiveIndex × List String)
    (r : AuctionEntityMongo) : ActiveIndex × List String :=
  if now < loadEndTime interval r then
    (mapInsert acc.1 r.id (loadEndTime interval r), acc.2)
  else
    (acc.1, acc.2 ++ [r.id])

/-- `LoadActiveAuctions` (lines 151-184).  `findFails` models the
`Find`/`cursor.All` call failing: then an internal error is returned and
nothing happens.  Otherwise every document with `status = Active` is
processed by `loadStep`. -/
def loadActiveAuctions (store : List AuctionEntityMongo) (idx : ActiveIndex)
    (interval now : Int) (findFails : Bool) : LoadResult :=
  if findFails then ⟨idx, [], some errLoad⟩
  else
    let res := (List.filter
        (fun r => decide (r.status = AuctionStatus.Active)) store).foldl
        (loadStep interval now) (idx, [])
    ⟨res.1, res.2, none⟩

/-- `time.Minute * 5`, the fallback of `getAuctionInterval` (line 190). -/
def defaultAuctionInterval : Int := 5 * 60 * nanosPerSecond

/-- `os.Getenv`: the empty string when the variable is absent. -/
def getenv (envValue : Option String) : String := envValue.getD emptyString

/-- `getAuctionInterval` (lines 186-194).  `parseDuration` models the Go
standard library `time.ParseDuration` (an external collaborator), giving
the parsed duration in nanoseconds or `none` on a parse error; the Go
parser rejects the empty string, which callers supply as the hypothesis
`parseDuration emptyString = none` where needed. -/
def getAuctionInterval (parseDuration : String → Option Int)
    (envValue : Option String) : Int :=
  match parseDuration (getenv envValue) with
  | none => defaultAuctionInterval
  | some duration => duration

/-- The fields of `AuctionRepository` this development reasons about,
as initialised by `NewAuctionRepository` (lines 36-52): the interval is
computed once from configuration and the construction is a total function
(it cannot fail); no operation of the repository ever writes the interval
again — every embedded operation above takes it as a read-only
parameter. -/
structure AuctionRepository where
  auctionInterval : Int
  activeAuctions : ActiveIndex

/-- `NewAuctionRepository` (lines 36-52): reads the interval once, starts
with an empty index. -/
def newAuctionRepository (parseDuration : String → Option Int)
    (envValue : Option String) : AuctionRepository :=
  { auctionInterval := getAuctionInterval parseDuration envValue
    activeAuctions := [] }

/-! ### Helper lemmas about the association-list map -/

lemma mapLookup_insert_self (m : ActiveIndex) (k : String) (v : Int) :
    mapLookup (mapInsert m k v) k = some v := by
  induction m with
  | nil => simp [mapInsert, mapLookup]
  | cons p ps ih =>
    by_cases h : p.1 = k
    · simp [mapInsert, h, mapLookup]
    · simp [mapInsert, h, mapLookup, ih]

lemma mapLookup_insert_other (m : ActiveIndex) (k x : String) (v : Int)
    (h : x ≠ k) : mapLookup (mapInsert m k v) x = mapLookup m x := by
  have hk : ¬ k = x := fun e => h e.symm
  induction m with
  | nil => simp [mapInsert, mapLookup, hk]
  | cons p ps ih =>
    by_cases hp : p.1 = k
    · rw [show mapInsert (p :: ps) k v = (k, v) :: ps by simp [mapInsert, hp]]
      simp [mapLookup, hk, hp]
    · rw [show mapInsert (p :: ps) k v = p :: mapInsert ps k v by
        simp [mapInsert, hp]]
      by_cases hx : p.1 = x
      · simp [mapLookup, hx]
      · simp [mapLookup, hx, ih]

lemma mapLookup_erase_self (m : ActiveIndex) (k : String) :
    mapLookup (mapErase m k) k = none := by
  induction m with
  | nil => rfl
  | cons p ps ih =>
    by_cases h : p.1 = k
    · simp [mapErase, h, ih]
    · simp [mapErase, h, mapLookup, ih]

lemma mapLookup_erase_other (m : ActiveIndex) (k x : String) (h : x ≠ k) :
    mapLookup (mapErase m k) x = mapLookup m x := by
  have hk : ¬ k = x := fun e => h e.symm
  induction m with
  | nil => rfl
  | cons p ps ih =>
    by_cases hp : p.1 = k
    · have hpx : ¬ p.1 = x := fun e => h (e.symm.trans hp)
      simp [mapErase, hp, mapLookup, hpx, ih, hk]
    · by_cases hx : p.1 = x
      · simp [mapErase, hp, mapLookup, hx, h]
      · simp [mapErase, hp, mapLookup, hx, ih, h]

lemma mapLookup_of_mem (m : ActiveIndex) (k : String) (v : Int)
    (hnd : (List.map Prod.fst m).Nodup) (hm : (k, v) ∈ m) :
    mapLookup m k = some v := by
  induction m with
  | nil => cases hm
  | cons p ps ih =>
    rw [List.map_cons, List.nodup_cons] at hnd
    rcases List.mem_cons.mp hm with he | hm2
    · subst he
      simp [mapLookup]
    · have hk : k ∈ List.map Prod.fst ps :=
        List.mem_map.mpr ⟨(k, v), hm2, rfl⟩
      have hp : p.1 ≠ k := fun e => hnd.1 (e ▸ hk)
      simp [mapLookup, hp, ih hnd.2 hm2]

/-! ### Helper lemmas about the conditional update and the sweep -/

lemma updateOneStore_findRec_other (id x : String) (h : x ≠ id) :
    ∀ store : List AuctionEntityMongo,
      findRec (updateOneStore store id) x = findRec store x := by
  intro store
  have hix : ¬ id = x := fun e => h e.symm
  induction store with
  | nil => rfl
  | cons r rs ih =>
    by_cases hc : r.id = id ∧ r.status = AuctionStatus.Active
    · have hrx : ¬ r.id = x := fun e => h (e.symm.trans hc.1)
      simp [updateOneStore, hc, findRec, hrx, hix]
    · by_cases hx : r.id = x
      · simp [updateOneStore, hc, findRec, hx, h]
      · simp [updateOneStore, hc, findRec, hx, ih]

lemma updateOne_noop (id : String) :
    ∀ store : List AuctionEntityMongo,
      (∀ r ∈ store, r.id = id → r.status ≠ AuctionStatus.Active) →
      updateOneStore store id = store ∧ updateOneMatched store id = 0 := by
  intro store
  induction store with
  | nil => intro _; exact ⟨rfl, rfl⟩
  | cons r rs ih =>
    intro h
    have hc : ¬ (r.id = id ∧ r.status = AuctionStatus.Active) := by
      rintro ⟨h1, h2⟩
      exact h r (List.mem_cons_self r rs) h1 h2
    have ht := ih (fun s hs => h s (List.mem_cons_of_mem r hs))
    simp [updateOneStore, updateOneMatched, hc, ht.1, ht.2]

lemma sweepCloseOne_fail (fails : String → Bool) (st : RepoState)
    (id : String) (h : fails id = true) : sweepCloseOne fails st id = st := by
  simp [sweepCloseOne, closeAuction, h]

lemma sweepCloseOne_ok (fails : String → Bool) (st : RepoState)
    (id : String) (h : fails id = false) :
    sweepCloseOne fails st id =
      ⟨updateOneStore st.store id, mapErase st.activeAuctions id⟩ := by
  simp [sweepCloseOne, closeAuction, h]

lemma sweepCloseOne_frame (fails : String → Bool) (st : RepoState)
    (a x : String) (hxa : x ≠ a) :
    mapLookup (sweepCloseOne fails st a).activeAuctions x
        = mapLookup st.activeAuctions x ∧
    findRec (sweepCloseOne fails st a).store x = findRec st.store x := by
  cases hfa : fails a
  · rw [sweepCloseOne_ok fails st a hfa]
    exact ⟨mapLookup_erase_other _ _ _ hxa,
      updateOneStore_findRec_other a x hxa st.store⟩
  · rw [sweepCloseOne_fail fails st a hfa]
    exact ⟨rfl, rfl⟩

lemma sweep_foldl_frame (fails : String → Bool) (x : String) :
    ∀ l : List String, x ∉ l → ∀ st : RepoState,
      mapLookup (l.foldl (sweepCloseOne fails) st).activeAuctions x
          = mapLookup st.activeAuctions x ∧
      findRec (l.foldl (sweepCloseOne fails) st).store x
          = findRec st.store x := by
  intro l
  induction l with
  | nil => intro _ st; exact ⟨rfl, rfl⟩
  | cons a t ih =>
    intro hx st
    have hxa : x ≠ a := fun e => hx (e ▸ List.mem_cons_self a t)
    have hxt : x ∉ t := fun hm => hx (List.mem_cons_of_mem a hm)
    have hstep := sweepCloseOne_frame fails st a x hxa
    have hrest := ih hxt (sweepCloseOne fails st a)
    exact ⟨hrest.1.trans hstep.1, hrest.2.trans hstep.2⟩

lemma sweep_foldl_process (fails : String → Bool) (id : String) :
    ∀ l : List String, l.Nodup → id ∈ l → ∀ st : RepoState,
      (fails id = true →
        mapLookup (l.foldl (sweepCloseOne fails) st).activeAuctions id
          = mapLookup st.activeAuctions id) ∧
      (fails id = false →
        mapLookup (l.foldl (sweepCloseOne fails) st).activeAuctions id
          = none) := by
  intro l
  induction l with
  | nil => intro _ hid; cases hid
  | cons a t ih =>
    intro hnd hid st
    rw [List.nodup_cons] at hnd
    rcases List.mem_cons.mp hid with he | hmem
    · subst he
      have hidt : id ∉ t := hnd.1
      constructor
      · intro hf
        rw [List.foldl_cons, sweepCloseOne_fail fails st id hf]
        exact (sweep_foldl_frame fails id t hidt st).1
      · intro hf
        rw [List.foldl_cons, sweepCloseOne_ok fails st id hf]
        have := (sweep_foldl_frame fails id t hidt
          ⟨updateOneStore st.store id, mapErase st.activeAuctions id⟩).1
        rw [this]
        exact mapLookup_erase_self st.activeAuctions id
    · have ha : id ≠ a := by
        intro e
        exact hnd.1 (e ▸ hmem)
      have hstep := (sweepCloseOne_frame fails st a id ha).1
      have ht := ih hnd.2 hmem (sweepCloseOne fails st a)
      constructor
      · intro hf
        rw [List.foldl_cons, ht.1 hf, hstep]
      · intro hf
        rw [List.foldl_cons]
        exact ht.2 hf

lemma mem_snapshotExpired_iff (m : ActiveIndex) (now : Int) (id : String) :
    id ∈ snapshotExpired m now ↔ ∃ e, (id, e) ∈ m ∧ e < now := by
  constructor
  · intro h
    rcases List.mem_map.mp h with ⟨p, hp, hp1⟩
    rcases List.mem_filter.mp hp with ⟨hpm, hplt⟩
    exact ⟨p.2, by rw [← hp1]; exact hpm, of_decide_eq_true hplt⟩
  · rintro ⟨e, hm, hlt⟩
    exact List.mem_map.mpr ⟨(id, e),
      List.mem_filter.mpr ⟨hm, decide_eq_true hlt⟩, rfl⟩

lemma snapshotExpired_nodup (m : ActiveIndex) (now : Int)
    (hnd : (List.map Prod.fst m).Nodup) : (snapshotExpired m now).Nodup := by
  have hsub : (snapshotExpired m now).Sublist (List.map Prod.fst m) :=
    List.Sublist.map Prod.fst (List.filter_sublist m)
  exact hnd.sublist hsub

/-! ### Helper lemmas about the reconciliation fold -/

lemma load_foldl_frame (interval now : Int) (x : String) :
    ∀ l : List AuctionEntityMongo, (∀ s ∈ l, s.id ≠ x) →
      ∀ acc : ActiveIndex × List String,
        mapLookup (l.foldl (loadStep interval now) acc).1 x
            = mapLookup acc.1 x ∧
        (x ∈ (l.foldl (loadStep interval now) acc).2 ↔ x ∈ acc.2) := by
  intro l
  induction l with
  | nil => intro _ acc; exact ⟨rfl, Iff.rfl⟩
  | cons s t ih =>
    intro hl acc
    have hs : s.id ≠ x := hl s (List.mem_cons_self s t)
    have ht := ih (fun u hu => hl u (List.mem_cons_of_mem s hu))
    rw [List.foldl_cons]
    by_cases hfut : now < loadEndTime interval s
    · have hstep : loadStep interval now acc s
          = (mapInsert acc.1 s.id (loadEndTime interval s), acc.2) := by
        simp [loadStep, hfut]
      rw [hstep]
      refine ⟨?_, (ht _).2⟩
      rw [(ht _).1]
      exact mapLookup_insert_other acc.1 s.id x _ (fun e => hs e.symm)
    · have hstep : loadStep interval now acc s = (acc.1, acc.2 ++ [s.id]) := by
        simp [loadStep, hfut]
      rw [hstep]
      refine ⟨(ht _).1, ((ht _).2).trans ?_⟩
      have hxs : ¬ x = s.id := fun e => hs e.symm
      simp [List.mem_append, hxs]

lemma load_foldl_mem (interval now : Int) (r : AuctionEntityMongo) :
    ∀ l : List AuctionEntityMongo, (List.map AuctionEntityMongo.id l).Nodup →
      r ∈ l → ∀ acc : ActiveIndex × List String,
      (now < loadEndTime interval r →
        mapLookup (l.foldl (loadStep interval now) acc).1 r.id
            = some (loadEndTime interval r) ∧
        (r.id ∈ (l.foldl (loadStep interval now) acc).2 ↔ r.id ∈ acc.2)) ∧
      (¬ now < loadEndTime interval r →
        mapLookup (l.foldl (loadStep interval now) acc).1 r.id
            = mapLookup acc.1 r.id ∧
        r.id ∈ (l.foldl (loadStep interval now) acc).2) := by
  intro l
  induction l with
  | nil => intro _ hr; cases hr
  | cons s t ih =>
    intro hnd hr acc
    rw [List.map_cons, List.nodup_cons] at hnd
    rcases List.mem_cons.mp hr with he | hmem
    · subst he
      have hrt : ∀ u ∈ t, u.id ≠ r.id := by
        intro u hu e
        exact hnd.1 (e ▸ List.mem_map.mpr ⟨u, hu, rfl⟩)
      rw [List.foldl_cons]
      constructor
      · intro hfut
        have hstep : loadStep interval now acc r
            = (mapInsert acc.1 r.id (loadEndTime interval r), acc.2) := by
          simp [loadStep, hfut]
        rw [hstep]
        have hfr := load_foldl_frame interval now r.id t hrt
          (mapInsert acc.1 r.id (loadEndTime interval r), acc.2)
        exact ⟨hfr.1.trans (mapLookup_insert_self acc.1 r.id _), hfr.2⟩
      · intro hfut
        have hstep : loadStep interval now acc r
            = (acc.1, acc.2 ++ [r.id]) := by
          simp [loadStep, hfut]
        rw [hstep]
        have hfr := load_foldl_frame interval now r.id t hrt
          (acc.1, acc.2 ++ [r.id])
        refine ⟨hfr.1, hfr.2.mpr ?_⟩
        simp
    · have hsr : s.id ≠ r.id := by
        intro e
        exact hnd.1 (e ▸ List.mem_map.mpr ⟨r, hmem, rfl⟩)
      rw [List.foldl_cons]
      have hstep1 : mapLookup (loadStep interval now acc s).1 r.id
          = mapLookup acc.1 r.id := by
        by_cases hfut : now < loadEndTime interval s
        · simp only [loadStep, if_pos hfut]
          exact mapLookup_insert_other acc.1 s.id r.id _
            (fun e => hsr e.symm)
        · simp only [loadStep, if_neg hfut]
      have hstep2 : r.id ∈ (loadStep interval now acc s).2 ↔ r.id ∈ acc.2 := by
        by_cases hfut : now < loadEndTime interval s
        · simp only [loadStep, if_pos hfut]
        · simp only [loadStep, if_neg hfut]
          have hrs : ¬ r.id = s.id := fun e => hsr e.symm
          simp [List.mem_append, hrs]
      have ht := ih hnd.2 hmem (loadStep interval now acc s)
      constructor
      · intro hfut
        exact ⟨(ht.1 hfut).1, ((ht.1 hfut).2).trans hstep2⟩
      · intro hfut
        exact ⟨((ht.2 hfut).1).trans hstep1, (ht.2 hfut).2⟩

/-! ### Sweeper lifecycle (Close / startAuctionCloser) -/

/-- Observable lifecycle state of the sweeper goroutine started by
`NewAuctionRepository`: whether `cancelCloser` has been invoked, whether
the goroutine of `startAuctionCloser` has returned, and how many sweep
ticks (`closeExpiredAuctions` runs) have executed. -/
structure SweeperWorld where
  cancelled : Bool
  stopped : Bool
  ticks : Nat
deriving DecidableEq

/-- `Close` (lines 82-84): it only calls `ar.cancelCloser()` — cancelling
the context — and returns immediately.  It contains no synchronization
(no WaitGroup, no done channel) that waits for the goroutine of
`startAuctionCloser` to observe the cancellation. -/
def closeSweeper (w : SweeperWorld) : SweeperWorld :=
  { w with cancelled := true }

/-- One iteration of the `select` loop of `startAuctionCloser`
(lines 91-99), as an interleaving step relation.  `tick` is the
`<-ticker.C` case, which runs `closeExpiredAuctions`; the Go runtime
chooses uniformly among ready `select` cases, and a pending ticker value
stays ready even after the context is cancelled, so this case is available
whenever the goroutine has not yet returned.  `stop` is the
`<-ar.auctionCloserCtx.Done()` case, ready only once the context has been
cancelled; it makes the goroutine return.  No step exists from a state
where the goroutine has already returned. -/
inductive LoopStep : SweeperWorld → SweeperWorld → Prop where
  | tick (w : SweeperWorld) (h : w.stopped = false) :
      LoopStep w { w with ticks := w.ticks + 1 }
  | stop (w : SweeperWorld) (h : w.stopped = false) (hc : w.cancelled = true) :
      LoopStep w { w with stopped := true }

/-! ### Concrete sample inputs used by the witness theorems -/

def idA : String := "auction-1"

def demoActiveRec : AuctionEntityMongo :=
  { id := idA, productName := "product", category := "category"
    description := "description", condition := 0
    status := AuctionStatus.Active, timestamp := 0 }

def demoCompletedRec : AuctionEntityMongo :=
  { demoActiveRec with status := AuctionStatus.Completed }

def demoNewAuction : Auction :=
  { id := idA, productName := "product", category := "category"
    description := "description", condition := 0
    status := AuctionStatus.New, timestamp := 0 }

def noFailure : String → Bool := fun _ => false

def noParse : String → Option Int := fun _ => none

/-! ### Claim theorems -/

/-- C1: closure is idempotent and conditioned on prior status.  If every
document with the given `_id` is already `Completed`, `closeAuction`
leaves the collection unchanged (so the status stays `Completed`), the
conditional update matches zero records, and the function returns success
(`nil`), not an error.  The hypothesis is exactly the failure of the
update's precondition (`status = Active`), so only an update whose
precondition holds can modify the store. -/
theorem closeAuction_completed_noop (store : List AuctionEntityMongo)
    (id : String)
    (h : ∀ r ∈ store, r.id = id → r.status = AuctionStatus.Completed) :
    closeAuction store id false = ⟨store, 0, none⟩ := by
  have hnc : ∀ r ∈ store, r.id = id → r.status ≠ AuctionStatus.Active := by
    intro r hr he hst
    exact AuctionStatus.noConfusion ((h r hr he).symm.trans hst)
  obtain ⟨h1, h2⟩ := updateOne_noop id store hnc
  simp [closeAuction, h1, h2]

/-- Witness for C1 on a one-document collection that is already
`Completed`. -/
theorem closeAuction_completed_noop_witness :
    closeAuction [demoCompletedRec] idA false = ⟨[demoCompletedRec], 0, none⟩ :=
  closeAuction_completed_noop [demoCompletedRec] idA (by decide)

/-- C2: no premature close.  If the index binds `id` to an end time that is
not strictly before `now`, the sweep tick at `now` does not select `id`
(so no status update is issued for it), its index entry is unchanged, and
the document with `_id = id` — in particular its status — is unchanged in
the collection. -/
theorem sweep_no_premature_close (fails : String → Bool) (st : RepoState)
    (now endTime : Int) (id : String)
    (hnd : (List.map Prod.fst st.activeAuctions).Nodup)
    (hmem : (id, endTime) ∈ st.activeAuctions)
    (hfresh : ¬ endTime < now) :
    id ∉ snapshotExpired st.activeAuctions now ∧
    mapLookup (closeExpiredAuctions fails st now).activeAuctions id
        = some endTime ∧
    findRec (closeExpiredAuctions fails st now).store id
        = findRec st.store id := by
  have hlook : mapLookup st.activeAuctions id = some endTime :=
    mapLookup_of_mem _ _ _ hnd hmem
  have hnotin : id ∉ snapshotExpired st.activeAuctions now := by
    intro hin
    rcases (mem_snapshotExpired_iff _ _ _).mp hin with ⟨e, he, hlt⟩
    have hle := mapLookup_of_mem _ _ _ hnd he
    have he2 : endTime = e := Option.some.inj (hlook.symm.trans hle)
    exact hfresh (by rw [he2]; exact hlt)
  have hframe := sweep_foldl_frame fails id
    (snapshotExpired st.activeAuctions now) hnotin st
  exact ⟨hnotin, hframe.1.trans hlook, hframe.2⟩

/-- Witness for C2: one active auction whose end time 100 is after the
sweep instant 50. -/
theorem sweep_no_premature_close_witness :
    idA ∉ snapshotExpired [(idA, 100)] 50 ∧
    mapLookup (closeExpiredAuctions noFailure
        ⟨[demoActiveRec], [(idA, 100)]⟩ 50).activeAuctions idA = some 100 ∧
    findRec (closeExpiredAuctions noFailure
        ⟨[demoActiveRec], [(idA, 100)]⟩ 50).store idA
      = findRec [demoActiveRec] idA :=
  sweep_no_premature_close noFailure ⟨[demoActiveRec], [(idA, 100)]⟩ 50 100 idA
    (by decide) (by decide) (by decide)

/-- C3: `LoadActiveAuctions` partitions the durably `Active` documents it
reads.  For a document `r` with `status = Active` in the collection: if its
recomputed expiry `time.Unix(r.timestamp, 0) + interval` is still in the
future (`now < endTime`), the index afterwards binds `r.id` to that
expiry and no close is invoked for `r.id`; if the expiry has passed,
`closeAuction` is invoked for `r.id` and the index entry for `r.id` is
exactly what it was before the call — the identifier is never added. -/
theorem loadActiveAuctions_partition (store : List AuctionEntityMongo)
    (idx : ActiveIndex) (interval now : Int) (r : AuctionEntityMongo)
    (hnd : (List.map AuctionEntityMongo.id store).Nodup)
    (hr : r ∈ store) (ha : r.status = AuctionStatus.Active) :
    (now < loadEndTime interval r →
      mapLookup (loadActiveAuctions store idx interval now false).index r.id
          = some (loadEndTime interval r) ∧
      r.id ∉ (loadActiveAuctions store idx interval now false).closedIds) ∧
    (¬ now < loadEndTime interval r →
      r.id ∈ (loadActiveAuctions store idx interval now false).closedIds ∧
      mapLookup (loadActiveAuctions store idx interval now false).index r.id
          = mapLookup idx r.id) := by
  have hfl : r ∈ List.filter
      (fun s => decide (s.status = AuctionStatus.Active)) store :=
    List.mem_filter.mpr ⟨hr, decide_eq_true ha⟩
  have hndl : (List.map AuctionEntityMongo.id (List.filter
      (fun s => decide (s.status = AuctionStatus.Active)) store)).Nodup :=
    hnd.sublist (List.Sublist.map _ (List.filter_sublist store))
  have hmain := load_foldl_mem interval now r _ hndl hfl (idx, [])
  constructor
  · intro hfut
    obtain ⟨h1, h2⟩ := hmain.1 hfut
    refine ⟨h1, fun hm => ?_⟩
    simpa using h2.mp hm
  · intro hfut
    obtain ⟨h1, h2⟩ := hmain.2 hfut
    exact ⟨h2, h1⟩

/-- Witness for C3 in the future branch: a single active document with
timestamp 0 and interval 0, reconciled at `now = -1 < 0 = endTime`. -/
theorem loadActiveAuctions_partition_witness :
    ((-1 : Int) < loadEndTime 0 demoActiveRec →
      mapLookup (loadActiveAuctions [demoActiveRec] [] 0 (-1) false).index
          demoActiveRec.id = some (loadEndTime 0 demoActiveRec) ∧
      demoActiveRec.id ∉
        (loadActiveAuctions [demoActiveRec] [] 0 (-1) false).closedIds) ∧
    (¬ (-1 : Int) < loadEndTime 0 demoActiveRec →
      demoActiveRec.id ∈
        (loadActiveAuctions [demoActiveRec] [] 0 (-1) false).closedIds ∧
      mapLookup (loadActiveAuctions [demoActiveRec] [] 0 (-1) false).index
          demoActiveRec.id = mapLookup [] demoActiveRec.id) :=
  loadActiveAuctions_partition [demoActiveRec] [] 0 (-1) demoActiveRec
    (by decide) (by decide) (by decide)

/-- C4: error handling of the close loop.  For an identifier the tick at
`now` found expired: if its `UpdateOne` fails, its index entry is exactly
what it was before the tick (so the next tick retries it); if the call
does not fail — matched or not — the identifier is removed from the index.
The statement holds for every expired identifier and every failure
pattern `fails` of the other identifiers, so one failure never aborts the
processing of the remaining identifiers. -/
theorem sweep_expired_error_handling (fails : String → Bool) (st : RepoState)
    (now : Int) (id : String)
    (hnd : (List.map Prod.fst st.activeAuctions).Nodup)
    (hid : id ∈ snapshotExpired st.activeAuctions now) :
    (fails id = true →
      mapLookup (closeExpiredAuctions fails st now).activeAuctions id
        = mapLookup st.activeAuctions id) ∧
    (fails id = false →
      mapLookup (closeExpiredAuctions fails st now).activeAuctions id
        = none) :=
  sweep_foldl_process fails id (snapshotExpired st.activeAuctions now)
    (snapshotExpired_nodup st.activeAuctions now hnd) hid st

/-- Witness for C4: end time 10 is before the sweep instant 50, no
storage failure, so the entry is removed. -/
theorem sweep_expired_error_handling_witness :
    (noFailure idA = true →
      mapLookup (closeExpiredAuctions noFailure
          ⟨[demoActiveRec], [(idA, 10)]⟩ 50).activeAuctions idA
        = mapLookup [(idA, 10)] idA) ∧
    (noFailure idA = false →
      mapLookup (closeExpiredAuctions noFailure
          ⟨[demoActiveRec], [(idA, 10)]⟩ 50).activeAuctions idA
        = none) :=
  sweep_expired_error_handling noFailure ⟨[demoActiveRec], [(idA, 10)]⟩ 50 idA
    (by decide) (by decide)

/-- C5: `CreateAuction` is atomic with respect to the index.  If the
insert fails it returns the propagated storage error and both the
collection and the index are exactly as before; if the insert succeeds it
returns success, the document is persisted and the index binds the
auction's id to `Timestamp + interval`. -/
theorem createAuction_atomic (store : List AuctionEntityMongo)
    (idx : ActiveIndex) (interval : Int) (a : Auction) :
    createAuction store idx interval a true = ⟨store, idx, some errInsert⟩ ∧
    (createAuction store idx interval a false).error = none ∧
    (createAuction store idx interval a false).store
      = store ++ [toMongoEntity a] ∧
    mapLookup (createAuction store idx interval a false).index a.id
      = some (a.timestamp + interval) :=
  ⟨rfl, rfl, rfl, mapLookup_insert_self idx a.id _⟩

/-- C7: the expired snapshot returns exactly the identifiers whose end
time is strictly before `now`; an entry whose end time equals `now` does
not satisfy `e < now` and is not selected.  `snapshotExpired` is a pure
function of the index — the Go loop only reads the map under `RLock` —
so the scan mutates nothing. -/
theorem snapshotExpired_exact (m : ActiveIndex) (now : Int) (id : String) :
    id ∈ snapshotExpired m now ↔ ∃ e, (id, e) ∈ m ∧ e < now :=
  mem_snapshotExpired_iff m now id

/-- C8: the auction interval is computed by `getAuctionInterval` exactly
once, inside `NewAuctionRepository` — construction is a total function, so
the fallback can never make it fail, and no operation of the embedding
ever writes the field again.  If the variable is absent (Go `os.Getenv`
then yields the empty string, which `time.ParseDuration` rejects — the
hypothesis) or its value fails to parse, the interval is the 5-minute
default; if parsing succeeds the interval is the parsed duration. -/
theorem auctionInterval_config (parseDuration : String → Option Int)
    (envValue : Option String)
    (hempty : parseDuration emptyString = none) :
    ((envValue = none ∨ parseDuration (getenv envValue) = none) →
      (newAuctionRepository parseDuration envValue).auctionInterval
        = defaultAuctionInterval) ∧
    (∀ d, parseDuration (getenv envValue) = some d →
      (newAuctionRepository parseDuration envValue).auctionInterval = d) := by
  constructor
  · intro h
    rcases h with he | hp
    · subst he
      simp [newAuctionRepository, getAuctionInterval, getenv, hempty]
    · simp [newAuctionRepository, getAuctionInterval, hp]
  · intro d hd
    simp [newAuctionRepository, getAuctionInterval, hd]

/-- Witness for C8: absent variable with a parser rejecting everything. -/
theorem auctionInterval_config_witness :
    (((none : Option String) = none ∨ noParse (getenv none) = none) →
      (newAuctionRepository noParse none).auctionInterval
        = defaultAuctionInterval) ∧
    (∀ d, noParse (getenv none) = some d →
      (newAuctionRepository noParse none).auctionInterval = d) :=
  auctionInterval_config noParse none rfl

/-- C9: after a successful insert, `CreateAuction` registers
`id ↦ Timestamp + interval` unconditionally — here even though the
entity's status is not `Active` (the status is persisted verbatim) and
even though the computed expiry is already past `now`; the entry is
present in the index immediately after the call, so an entry expired at
creation is evicted only by a later sweep tick, never immediately. -/
theorem createAuction_registers_always (store : List AuctionEntityMongo)
    (idx : ActiveIndex) (interval now : Int) (a : Auction)
    (_hstat : a.status ≠ AuctionStatus.Active)
    (_hexp : a.timestamp + interval < now) :
    mapLookup (createAuction store idx interval a false).index a.id
      = some (a.timestamp + interval) ∧
    (createAuction store idx interval a false).store
      = store ++ [toMongoEntity a] ∧
    (toMongoEntity a).status = a.status :=
  ⟨mapLookup_insert_self idx a.id _, rfl, rfl⟩

/-- Witness for C9: a `New`-status auction whose expiry (0) is already
before `now = 1`. -/
theorem createAuction_registers_always_witness :
    mapLookup (createAuction [] [] 0 demoNewAuction false).index
        demoNewAuction.id = some (demoNewAuction.timestamp + 0) ∧
    (createAuction [] [] 0 demoNewAuction false).store
      = [] ++ [toMongoEntity demoNewAuction] ∧
    (toMongoEntity demoNewAuction).status = demoNewAuction.status :=
  createAuction_registers_always [] [] 0 1 demoNewAuction
    (by decide) (by decide)

/-- C10: timestamps are persisted as whole Unix seconds, so the expiry
recomputed by `LoadActiveAuctions` from the persisted document is
`(timestamp truncated to seconds) + interval`: it is never later than the
expiry `CreateAuction` registered, it is less than one second earlier,
and the two agree exactly if and only if the creation timestamp has no
sub-second component (is divisible by `10^9` nanoseconds). -/
theorem timestamp_truncation (a : Auction) (interval : Int) :
    loadEndTime interval (toMongoEntity a) ≤ a.timestamp + interval ∧
    a.timestamp + interval
      < loadEndTime interval (toMongoEntity a) + nanosPerSecond ∧
    (loadEndTime interval (toMongoEntity a) = a.timestamp + interval ↔
      nanosPerSecond ∣ a.timestamp) := by
  have ht : loadEndTime interval (toMongoEntity a)
      = a.timestamp / 1000000000 * 1000000000 + interval := rfl
  have hn : nanosPerSecond = 1000000000 := rfl
  rw [ht, hn]
  omega

/-- C6, counterexample to the claim as stated: `Close` only cancels the
context and does not wait for the loop, so a sweep tick can still execute
after `Close` returns — here a concrete step from the freshly closed world
runs one tick. -/
theorem close_does_not_stop_loop :
    ¬ ∀ w w' : SweeperWorld,
        LoopStep (closeSweeper w) w' → w'.ticks = w.ticks := by
  intro h
  have hstep : LoopStep (closeSweeper ⟨false, false, 0⟩) ⟨true, false, 1⟩ :=
    LoopStep.tick ⟨true, false, 0⟩ rfl
  exact absurd (h ⟨false, false, 0⟩ ⟨true, false, 1⟩ hstep) (by decide)

/-- C6, amended: `Close` is idempotent (cancelling twice equals cancelling
once); loop steps only exist while the goroutine has not returned, so once
it has stopped no further tick executes; and the loop stops only by
observing cancellation, performing no tick in the stopping step.  What the
code does not guarantee is that the loop has ceased when `Close` returns:
a tick may still run between `Close` and the loop observing cancellation
(the counterexample above). -/
theorem sweeper_stop_amended (w w' : SweeperWorld) (hstep : LoopStep w w') :
    closeSweeper (closeSweeper w) = closeSweeper w ∧
    w.stopped = false ∧
    (w'.stopped = true → w.cancelled = true ∧ w'.ticks = w.ticks) := by
  obtain ⟨c, s, t⟩ := w
  cases hstep with
  | tick h =>
    refine ⟨rfl, h, fun hs => ?_⟩
    rw [show ({ cancelled := c, stopped := s, ticks := t + 1 } :
      SweeperWorld).stopped = s from rfl] at hs
    exact absurd (h.symm.trans hs) Bool.false_ne_true
  | stop h hc =>
    exact ⟨rfl, h, fun _ => ⟨hc, rfl⟩⟩

/-- Witness for the amended C6: a concrete stopping step from a cancelled,
still-running world. -/
theorem sweeper_stop_amended_witness :
    closeSweeper (closeSweeper ⟨true, false, 0⟩) = closeSweeper ⟨true, false, 0⟩ ∧
    (⟨true, false, 0⟩ : SweeperWorld).stopped = false ∧
    ((⟨true, true, 0⟩ : SweeperWorld).stopped = true →
      (⟨true, false, 0⟩ : SweeperWorld).cancelled = true ∧
      (⟨true, true, 0⟩ : SweeperWorld).ticks
        = (⟨true, false, 0⟩ : SweeperWorld).ticks) :=
  sweeper_stop_amended ⟨true, false, 0⟩ ⟨true, true, 0⟩
    (LoopStep.stop ⟨true, false, 0⟩ rfl rfl)
